import Mathlib

/-!
Verification of the concurrent request dispatch subsystem of `tenlib`
(`tenlib/http.py`): the `Multi` parameter-expansion engine
(`MultiRequest`/`MultiRequestFirst`), the `RequestPool` result-retrieval and
error-handling policies, and the `ScopedSession` URL scoping logic.

The Python structures are embedded shallowly:

* `Val` models the nested request-argument structures (`kwargs`): scalars,
  lists, tuples, string-keyed dicts (as ordered association lists, matching
  Python dict insertion order) and `Multi` markers.
* Functions named after the Python methods (`arguments_copy` for
  `MultiRequest.__arguments_copy`, `find_multis_in_value` for
  `MultiRequest._find_multis_in_value`, `replace_at_path` for
  `MultiRequest._replace_at_path`, `iter_set_path` for
  `MultiRequest._iter_set_path`, `tag_results` for `RequestPool._tag_results`,
  and so on) are translated directly from the source; in-place mutation of the
  arguments structure becomes explicit value passing, and generators become
  lists (order of elements = order of `yield`/`submit` calls).
* `urlparse` models the fields of Python's `urllib.parse.urlparse` that
  `ScopedSession.is_in_scope` reads (scheme, hostname, port, path), restricted
  to well-formed `http`/`https` URLs and scheme-less strings; malformed port
  digits, where Python would raise on attribute access, are modelled as an
  absent port.
-/

set_option maxHeartbeats 1000000

namespace Tenlib

/-- A nested Python request-argument value: scalars (`vstr`, `vnat`, `vnone`),
lists, tuples, string-keyed dicts (ordered association lists, as Python dicts
preserve insertion order) and `Multi` markers (`class Multi: items: list`). -/
inductive Val where
  | vstr : String → Val
  | vnat : Nat → Val
  | vnone : Val
  | vlist : List Val → Val
  | vtup : List Val → Val
  | vdict : List (String × Val) → Val
  | multi : List Val → Val

/-- A step of a path into a nested argument structure: a dict key or a
sequence index (the tuples built by `path + (key,)` / `path + (i,)` in
`MultiRequest._find_multis_in_value`). -/
inductive Step where
  | key : String → Step
  | idx : Nat → Step
deriving DecidableEq

/-- A path into a nested argument structure, as built by Multi discovery. -/
abbrev TagPath := List Step

mutual

/-- Decidable equality for `Val` (hand-written: `Val` is a nested inductive,
so `deriving DecidableEq` is unavailable). -/
def val_dec_eq : (a b : Val) → Decidable (a = b)
  | .vstr x, .vstr y =>
      if h : x = y then isTrue (by rw [h]) else isFalse (by simp [h])
  | .vstr _, .vnat _ => isFalse (by simp)
  | .vstr _, .vnone => isFalse (by simp)
  | .vstr _, .vlist _ => isFalse (by simp)
  | .vstr _, .vtup _ => isFalse (by simp)
  | .vstr _, .vdict _ => isFalse (by simp)
  | .vstr _, .multi _ => isFalse (by simp)
  | .vnat _, .vstr _ => isFalse (by simp)
  | .vnat x, .vnat y =>
      if h : x = y then isTrue (by rw [h]) else isFalse (by simp [h])
  | .vnat _, .vnone => isFalse (by simp)
  | .vnat _, .vlist _ => isFalse (by simp)
  | .vnat _, .vtup _ => isFalse (by simp)
  | .vnat _, .vdict _ => isFalse (by simp)
  | .vnat _, .multi _ => isFalse (by simp)
  | .vnone, .vstr _ => isFalse (by simp)
  | .vnone, .vnat _ => isFalse (by simp)
  | .vnone, .vnone => isTrue rfl
  | .vnone, .vlist _ => isFalse (by simp)
  | .vnone, .vtup _ => isFalse (by simp)
  | .vnone, .vdict _ => isFalse (by simp)
  | .vnone, .multi _ => isFalse (by simp)
  | .vlist _, .vstr _ => isFalse (by simp)
  | .vlist _, .vnat _ => isFalse (by simp)
  | .vlist _, .vnone => isFalse (by simp)
  | .vlist x, .vlist y =>
      match val_list_dec_eq x y with
      | isTrue h => isTrue (by rw [h])
      | isFalse h => isFalse (by simp [h])
  | .vlist _, .vtup _ => isFalse (by simp)
  | .vlist _, .vdict _ => isFalse (by simp)
  | .vlist _, .multi _ => isFalse (by simp)
  | .vtup _, .vstr _ => isFalse (by simp)
  | .vtup _, .vnat _ => isFalse (by simp)
  | .vtup _, .vnone => isFalse (by simp)
  | .vtup _, .vlist _ => isFalse (by simp)
  | .vtup x, .vtup y =>
      match val_list_dec_eq x y with
      | isTrue h => isTrue (by rw [h])
      | isFalse h => isFalse (by simp [h])
  | .vtup _, .vdict _ => isFalse (by simp)
  | .vtup _, .multi _ => isFalse (by simp)
  | .vdict _, .vstr _ => isFalse (by simp)
  | .vdict _, .vnat _ => isFalse (by simp)
  | .vdict _, .vnone => isFalse (by simp)
  | .vdict _, .vlist _ => isFalse (by simp)
  | .vdict _, .vtup _ => isFalse (by simp)
  | .vdict x, .vdict y =>
      match val_dict_dec_eq x y with
      | isTrue h => isTrue (by rw [h])
      | isFalse h => isFalse (by simp [h])
  | .vdict _, .multi _ => isFalse (by simp)
  | .multi _, .vstr _ => isFalse (by simp)
  | .multi _, .vnat _ => isFalse (by simp)
  | .multi _, .vnone => isFalse (by simp)
  | .multi _, .vlist _ => isFalse (by simp)
  | .multi _, .vtup _ => isFalse (by simp)
  | .multi _, .vdict _ => isFalse (by simp)
  | .multi x, .multi y =>
      match val_list_dec_eq x y with
      | isTrue h => isTrue (by rw [h])
      | isFalse h => isFalse (by simp [h])

def val_list_dec_eq : (a b : List Val) → Decidable (a = b)
  | [], [] => isTrue rfl
  | [], _ :: _ => isFalse (by simp)
  | _ :: _, [] => isFalse (by simp)
  | a :: as, b :: bs =>
      match val_dec_eq a b with
      | isTrue h1 =>
          match val_list_dec_eq as bs with
          | isTrue h2 => isTrue (by rw [h1, h2])
          | isFalse h2 => isFalse (by simp [h2])
      | isFalse h1 => isFalse (by simp [h1])

def val_dict_dec_eq : (a b : List (String × Val)) → Decidable (a = b)
  | [], [] => isTrue rfl
  | [], _ :: _ => isFalse (by simp)
  | _ :: _, [] => isFalse (by simp)
  | (k, a) :: as, (l, b) :: bs =>
      if hk : k = l then
        match val_dec_eq a b with
        | isTrue h1 =>
            match val_dict_dec_eq as bs with
            | isTrue h2 => isTrue (by rw [hk, h1, h2])
            | isFalse h2 => isFalse (by simp [h2])
        | isFalse h1 => isFalse (by simp [h1])
      else isFalse (by simp [hk])

end

instance : DecidableEq Val := val_dec_eq

/-! ### ScopedSession (`tenlib/http.py`, `ScopedSession`) -/

/-- Python `str.startswith`. -/
def str_starts_with (s pre : String) : Bool := pre.toList.isPrefixOf s.toList

/-- Python `str.endswith`. -/
def str_ends_with (s suf : String) : Bool := suf.toList.isSuffixOf s.toList

/-- The components of a parsed URL read by `ScopedSession.is_in_scope`:
`scheme`, `hostname`, `port` and `path` of a `urllib.parse.urlparse` result. -/
structure ParsedUrl where
  scheme : String
  hostname : Option String
  port : Option Nat
  path : String
deriving DecidableEq

/-- Characters ending the network-location component of a URL. -/
def netloc_end_chars : List Char := ['/', '?', '#']

/-- Parses a decimal port; `none` when empty (no port given). Python raises
`ValueError` on non-digit ports when the attribute is accessed; the model
restricts attention to well-formed ports and maps anything else to `none`. -/
def parse_port (cs : List Char) : Option Nat :=
  if cs.isEmpty then none
  else if cs.all Char.isDigit then
    some (cs.foldl (fun acc c => acc * 10 + (c.toNat - 48)) 0)
  else none

/-- Splits off an `http`/`https` scheme, returning the scheme and the
remaining characters after `://`. -/
def url_scheme_split (url : String) : Option (String × List Char) :=
  if str_starts_with url "https://" then some ("https", url.toList.drop 8)
  else if str_starts_with url "http://" then some ("http", url.toList.drop 7)
  else none

/-- Models `urllib.parse.urlparse` restricted to the fields `is_in_scope`
reads, for `http`/`https` URLs and scheme-less strings: the netloc runs up to
the first `/`, `?` or `#`; the hostname is the lowercased part of the netloc
after the last `@` and before the first `:`; the port follows that `:`; the
path runs from the end of the netloc up to the first `?` or `#`. A scheme-less
string is all path. -/
def urlparse (url : String) : ParsedUrl :=
  match url_scheme_split url with
  | none => { scheme := "", hostname := none, port := none, path := url }
  | some (scheme, rest) =>
      let netloc := rest.takeWhile fun c => !(netloc_end_chars.contains c)
      let after_netloc := rest.dropWhile fun c => !(netloc_end_chars.contains c)
      let path := after_netloc.takeWhile fun c => c != '?' && c != '#'
      let hostport := (netloc.reverse.takeWhile fun c => c != '@').reverse
      let host := hostport.takeWhile fun c => c != ':'
      let port_digits := (hostport.dropWhile fun c => c != ':').drop 1
      { scheme := scheme
        hostname := if host.isEmpty then none else some (String.mk (host.map Char.toLower))
        port := parse_port port_digits
        path := String.mk path }

/-- `ScopedSession`: a session restricted to a base URL. Only the state read
by the scoping methods is modelled (`self.base_url`; `self._parsed_base_url`
is `urlparse self.base_url`, recomputed on demand since parsing is pure). -/
structure ScopedSession where
  base_url : String
deriving DecidableEq

/-- `ScopedSession.__init__`: strips one trailing `/` from the base URL. -/
def ScopedSession.init (base_url : String) : ScopedSession :=
  if str_ends_with base_url "/" then ⟨String.mk base_url.toList.dropLast⟩
  else ⟨base_url⟩

/-- `ScopedSession.get_absolute_url`: a URL starting with `https://` or
`http://` is returned unchanged; anything else is appended verbatim to the
base URL (the code deliberately avoids `urljoin` so that `..` segments are
preserved). The engine always calls this with the default `base`. -/
def ScopedSession.get_absolute_url (s : ScopedSession) (url : String) : String :=
  if str_starts_with url "https://" || str_starts_with url "http://" then url
  else s.base_url ++ url

/-- `ScopedSession.is_in_scope`: compares parsed hostname, port and scheme of
the URL against the parsed base URL, and requires the URL path to start with
the base path (plain string prefix). -/
def ScopedSession.is_in_scope (s : ScopedSession) (url : String) : Bool :=
  let bu := urlparse s.base_url
  let tu := urlparse url
  bu.hostname == tu.hostname && bu.port == tu.port && bu.scheme == tu.scheme
    && str_starts_with tu.path bu.path

/-- The payload of `HTTPOutOfScopeError(url, base)`. -/
structure HTTPOutOfScopeError where
  url : String
  base : String
deriving DecidableEq

/-- `ScopedSession.prepare_request`: rewrites the request URL to the absolute
URL, raises `HTTPOutOfScopeError(request.url, self.base_url)` when it is out
of scope, and otherwise hands the request (with the resolved URL) to the
underlying session; the requests beyond their URL are opaque here. -/
def ScopedSession.prepare_request (s : ScopedSession) (url : String) :
    Except HTTPOutOfScopeError String :=
  let resolved := s.get_absolute_url url
  if s.is_in_scope resolved then Except.ok resolved
  else Except.error ⟨resolved, s.base_url⟩

/-! ### RequestPool result retrieval (`RequestPool._tag_results` and friends) -/

/-- `on_error` policy of a pool: the literal `"raise" | "skip" | "return"`
(`ret` stands for `"return"`, a Lean keyword). -/
inductive ErrorHandling where
  | raise
  | skip
  | ret
deriving DecidableEq

instance {ε ρ : Type} [DecidableEq ε] [DecidableEq ρ] : DecidableEq (Except ε ρ) := fun a b =>
  match a, b with
  | .ok x, .ok y => if h : x = y then isTrue (by rw [h]) else isFalse (by simp [h])
  | .error x, .error y => if h : x = y then isTrue (by rw [h]) else isFalse (by simp [h])
  | .ok _, .error _ => isFalse (by simp)
  | .error _, .ok _ => isFalse (by simp)

/-- A settled future in the pool queue: its `tag` (set by `_submit_request`)
and its outcome — `future.result()` or `future.exception()`. -/
structure TaggedFuture (τ ε ρ : Type) where
  tag : τ
  outcome : Except ε ρ
deriving DecidableEq

/-- An item yielded by `_tag_results`: a response or (under `"return"`) the
exception object, in both cases with the future's tag attached. -/
structure TaggedResult (τ ε ρ : Type) where
  tag : τ
  value : Except ε ρ
deriving DecidableEq

/-- `RequestPool._tag_results`: walks the given futures in order; successes
are yielded with their tag; a failure is raised (`"raise"`: the returned
`Option ε` is the exception that escapes the generator, ending the yielded
sequence), dropped (`"skip"`), or yielded as a tagged value (`"return"`). The
returned list is the sequence of yields, in order. -/
def tag_results (on_error : ErrorHandling) :
    List (TaggedFuture τ ε ρ) → List (TaggedResult τ ε ρ) × Option ε
  | [] => ([], none)
  | f :: rest =>
      match f.outcome with
      | .ok r =>
          let res := tag_results on_error rest
          (⟨f.tag, .ok r⟩ :: res.1, res.2)
      | .error e =>
          match on_error with
          | .raise => ([], some e)
          | .skip => tag_results on_error rest
          | .ret =>
              let res := tag_results on_error rest
              (⟨f.tag, .error e⟩ :: res.1, res.2)

/-- `RequestPool.in_order`: `list(self._tag_results(self._queue))` — the
queue, which `_submit_request` appends to, is consumed in submission order. -/
def pool_in_order (on_error : ErrorHandling) (queue : List (TaggedFuture τ ε ρ)) :
    List (TaggedResult τ ε ρ) × Option ε :=
  tag_results on_error queue

/-- Whether a future completed without exception. -/
def future_ok (f : TaggedFuture τ ε ρ) : Bool :=
  match f.outcome with
  | .ok _ => true
  | .error _ => false

/-- The yielded item for a future under the `"return"` policy. -/
def future_result (f : TaggedFuture τ ε ρ) : TaggedResult τ ε ρ :=
  ⟨f.tag, f.outcome⟩

/-- The yielded item for a future under the `"skip"` policy (`none` for a
failed future: it is dropped). -/
def future_success (f : TaggedFuture τ ε ρ) : Option (TaggedResult τ ε ρ) :=
  match f.outcome with
  | .ok r => some ⟨f.tag, .ok r⟩
  | .error _ => none

/-- The first exception among the futures, in order. -/
def first_exception : List (TaggedFuture τ ε ρ) → Option ε
  | [] => none
  | f :: rest =>
      match f.outcome with
      | .error e => some e
      | .ok _ => first_exception rest

/-- Twenty futures, of which exactly one (index 7) failed: the concrete
`on_error="skip"` scenario of the spec. -/
def twenty_futures : List (TaggedFuture Nat String Nat) :=
  (List.range 20).map fun i =>
    ⟨i, if i = 7 then Except.error "error" else Except.ok i⟩

/-! ### `RequestPool._as_completed_futures`: live-growth completion loop

The loop is modelled deterministically: futures are the naturals
`0, ..., total - 1` in submission order (the live queue is append-only, so a
queue of length `total` is exactly `List.range total`); every submitted future
eventually completes, and contiguous consumer behaviour is a function
`react : Nat → Nat` giving the number of new futures the consuming loop
submits while handling the yield of future `i` (this is the only way the
queue grows mid-iteration). `as_completed(todo, 0.3)` yields the completed
todo set; the model fixes its completion order to queue order, which the
claims do not depend on. `fuel` bounds the number of `while True` passes so
the model is total; the claim is conditional on the loop having returned. -/

/-- One pass of the `for item in as_completed(todo, 0.3)` loop body: yields
items of `todo` in turn, updating `current_len` (`total`) after each yield,
and breaks out as soon as `current_len > old_len`. Returns the yields of the
pass and the queue length when the pass ended. -/
def pass_run (react : Nat → Nat) (old_len : Nat) :
    List Nat → Nat → List Nat × Nat
  | [], total => ([], total)
  | i :: rest, total =>
      let total2 := total + react i
      if old_len < total2 then ([i], total2)
      else
        let res := pass_run react old_len rest total2
        (i :: res.1, res.2)

/-- The `while True` loop of `_as_completed_futures`: recomputes
`todo = set(self._queue) - done`, runs a pass, and stops when the queue
length did not change over a full pass (`current_len == old_len`). Returns
all yielded futures in order plus the final queue length, or `none` when
`fuel` passes did not suffice. -/
def as_completed_loop (react : Nat → Nat) :
    Nat → Nat → List Nat → Option (List Nat × Nat)
  | 0, _, _ => none
  | fuel + 1, total, done =>
      let todo := (List.range total).filter fun i => !(done.contains i)
      let res := pass_run react total todo total
      if res.2 = total then some (done ++ res.1, res.2)
      else as_completed_loop react fuel res.2 (done ++ res.1)

/-! ### Pool submission after close (`RequestPool._submit_request` / `__exit__`) -/

/-- Models `concurrent.futures.ThreadPoolExecutor.submit`, which raises
`RuntimeError("cannot schedule new futures after shutdown")` once
`shutdown()` has run; before shutdown it returns the scheduled future. -/
def executor_submit (is_shutdown : Bool) (f : τ) : Except String τ :=
  if is_shutdown then Except.error "cannot schedule new futures after shutdown"
  else Except.ok f

/-- The pool state read by `_submit_request`: the executor shutdown flag and
the `self._queue` list of submitted futures. -/
structure PoolState (τ : Type) where
  executor_shutdown : Bool
  queue : List τ
deriving DecidableEq

/-- `RequestPool._submit_request`: submits to the executor first (which
raises if the pool was closed, leaving the queue untouched), then appends the
future to `self._queue` and returns it. -/
def submit_request (p : PoolState τ) (f : τ) : Except String (τ × PoolState τ) :=
  match executor_submit p.executor_shutdown f with
  | .error e => Except.error e
  | .ok fut => Except.ok (fut, { p with queue := p.queue ++ [fut] })

/-- `RequestPool.__exit__`: `self._executor.shutdown(wait=False,
cancel_futures=True)` — marks the executor shut down; the queue of
already-submitted futures is kept. -/
def pool_exit (p : PoolState τ) : PoolState τ :=
  { p with executor_shutdown := true }

/-! ### MultiRequestFirst (`MultiRequestFirst._get_results`) -/

/-- The lifecycle state of a submitted future (`Handle`). -/
inductive HandleState where
  | pending
  | running
  | completed
  | canceled
deriving DecidableEq

/-- Closing the pool (`__exit__` with `cancel_futures=True`): every future
that has not started yet is canceled; started ones are left alone. -/
def pool_close (hs : List HandleState) : List HandleState :=
  hs.map fun h =>
    match h with
    | HandleState.pending => HandleState.canceled
    | h => h

/-- `MultiRequestFirst._get_results`: consumes the `as_completed` stream (a
list of yielded tagged results in completion order, plus the exception that
ended the stream, if any) and returns the first result matching the filter;
when the stream is exhausted without a match it returns `None`; an exception
reached before any match propagates. -/
def first_get_results (filt : TaggedResult τ ε ρ → Bool)
    (stream : List (TaggedResult τ ε ρ) × Option ε) :
    Except ε (Option (TaggedResult τ ε ρ)) :=
  match stream.1.find? filt with
  | some r => Except.ok (some r)
  | none =>
      match stream.2 with
      | some e => Except.error e
      | none => Except.ok none

/-- `MultiRequestFirst` result retrieval over a pool whose completed futures
arrive in the given (completion) order: `pool.as_completed()` is
`_tag_results` applied to the completion-ordered futures. -/
def multi_first (filt : TaggedResult τ ε ρ → Bool) (on_error : ErrorHandling)
    (futs : List (TaggedFuture τ ε ρ)) : Except ε (Option (TaggedResult τ ε ρ)) :=
  first_get_results filt (tag_results on_error futs)

/-! ### Multi discovery, copying, substitution (`MultiRequest`) -/

mutual

/-- `MultiRequest.__arguments_copy`: dicts are rebuilt key by key, lists
*and tuples* both become lists of copies, a `Multi` still present becomes the
string `"X"`, and any other value is returned as is. -/
def arguments_copy : Val → Val
  | .vdict kvs => .vdict (arguments_copy_dict kvs)
  | .vlist vs => .vlist (arguments_copy_list vs)
  | .vtup vs => .vlist (arguments_copy_list vs)
  | .multi _ => .vstr "X"
  | v => v

def arguments_copy_list : List Val → List Val
  | [] => []
  | v :: vs => arguments_copy v :: arguments_copy_list vs

def arguments_copy_dict : List (String × Val) → List (String × Val)
  | [] => []
  | (k, v) :: kvs => (k, arguments_copy v) :: arguments_copy_dict kvs

end

mutual

/-- `MultiRequest._find_multis_in_value`: depth-first walk recording each
`Multi` under the path taken to reach it; lists and tuples are walked by
index, dicts by key in insertion order, scalars stop the walk. The Python
code fills an (insertion-ordered) dict `paths`; the model returns the
corresponding ordered association list. -/
def find_multis_in_value (path : TagPath) : Val → List (TagPath × List Val)
  | .multi items => [(path, items)]
  | .vlist vs => find_multis_in_list path 0 vs
  | .vtup vs => find_multis_in_list path 0 vs
  | .vdict kvs => find_multis_in_dict path kvs
  | _ => []

def find_multis_in_list (path : TagPath) (i : Nat) :
    List Val → List (TagPath × List Val)
  | [] => []
  | v :: vs =>
      find_multis_in_value (path ++ [Step.idx i]) v
        ++ find_multis_in_list path (i + 1) vs

def find_multis_in_dict (path : TagPath) :
    List (String × Val) → List (TagPath × List Val)
  | [] => []
  | (k, v) :: kvs =>
      find_multis_in_value (path ++ [Step.key k]) v
        ++ find_multis_in_dict path kvs

end

mutual

/-- `MultiRequest._replace_at_path`: walks `arguments` along the path and
sets the value at its last step; mutation becomes functional update. The
engine only ever calls this on structures produced by `arguments_copy` (so no
tuples: in Python, item assignment into a tuple would raise) at paths
produced by discovery (never empty, since the root is the kwargs dict, and
never through a non-container); the model totalizes the remaining cases by
returning the structure unchanged. -/
def replace_at_path : Val → TagPath → Val → Val
  | _, [], x => x
  | .vlist vs, .idx i :: rest, x => .vlist (replace_in_list vs i rest x)
  | .vtup vs, .idx i :: rest, x => .vtup (replace_in_list vs i rest x)
  | .vdict kvs, .key k :: rest, x => .vdict (replace_in_dict kvs k rest x)
  | v, _ :: _, _ => v

def replace_in_list : List Val → Nat → TagPath → Val → List Val
  | [], _, _, _ => []
  | v :: vs, 0, rest, x => replace_at_path v rest x :: vs
  | v :: vs, i + 1, rest, x => v :: replace_in_list vs i rest x

def replace_in_dict : List (String × Val) → String → TagPath → Val → List (String × Val)
  | [], _, _, _ => []
  | (k, v) :: kvs, key, rest, x =>
      if k = key then (k, replace_at_path v rest x) :: kvs
      else (k, v) :: replace_in_dict kvs key rest x

end

/-- One request handed to the pool by `_iter_set_path`: the (copied)
arguments passed as `method(**arguments, tag=set_items)` and the tag — the
ordered association list backing the `set_items` dict, mapping each
discovered path to the value substituted there. Since paths at distinct
recursion levels are distinct, `set_items | {path: item}` is exactly an
append. -/
structure Submission where
  arguments : Val
  tag : List (TagPath × Val)
deriving DecidableEq

/-- `MultiRequest._iter_set_path`: with no path left, copies the arguments
and submits them with the accumulated tag; otherwise loops over the first
Multi's items, substituting each at its path and recursing on the remaining
Multis (so the first discovered Multi is the outermost loop and the last
discovered varies fastest). The returned list is the sequence of submissions
in submission order. -/
def iter_set_path (arguments : Val) :
    List (TagPath × List Val) → List (TagPath × Val) → List Submission
  | [], set_items => [⟨arguments_copy arguments, set_items⟩]
  | (path, items) :: paths_items, set_items =>
      items.flatMap fun item =>
        iter_set_path (replace_at_path arguments path item) paths_items
          (set_items ++ [(path, item)])

/-- `MultiRequest._run_requests` up to the `with pool:` block: discovers the
Multis in the kwargs, copies the arguments once, and iterates all
combinations, producing the submissions handed to the pool in order. (The
"small optimisation" converting later `multi.items` with `list(...)` is the
identity here, `items` being lists.) -/
def run_submissions (options : Val) : List Submission :=
  iter_set_path (arguments_copy options) (find_multis_in_value [] options) []

/-- Sequential substitution of tagged values into a structure: replays a
tag's `path → value` entries with `replace_at_path`. This is what
`_iter_set_path` has performed on `arguments` when it reaches a leaf. -/
def subst_all : Val → List (TagPath × Val) → Val
  | v, [] => v
  | v, (p, x) :: rest => subst_all (replace_at_path v p x) rest

/-- Specification-side cartesian product of the discovered Multis, in the
enumeration order claimed by the spec: the first discovered Multi is the
outermost loop (varies slowest) and the last discovered the innermost
(varies fastest); each element is a full tag. -/
def tag_product : List (TagPath × List Val) → List (List (TagPath × Val))
  | [] => [[]]
  | (path, items) :: rest =>
      let tails := tag_product rest
      items.flatMap fun item => tails.map fun tl => (path, item) :: tl

/-- Whether a dict association list holds an entry for key `k`. -/
def dict_has_key (k : String) : List (String × Val) → Bool
  | [] => false
  | (l, _) :: kvs => l == k || dict_has_key k kvs

/-- Whether a dict association list has pairwise-distinct keys (every Python
dict satisfies this by construction; the `Val` model must assume it). -/
def dict_keys_unique : List (String × Val) → Bool
  | [] => true
  | (k, _) :: kvs => !(dict_has_key k kvs) && dict_keys_unique kvs

mutual

/-- Well-formedness of a `Val` as the image of a Python value: every dict in
it has pairwise-distinct keys. (`Multi.items` are not traversed by
discovery, so they are unconstrained.) -/
def val_wf : Val → Bool
  | .vlist vs => val_list_wf vs
  | .vtup vs => val_list_wf vs
  | .vdict kvs => dict_keys_unique kvs && val_dict_wf kvs
  | _ => true

def val_list_wf : List Val → Bool
  | [] => true
  | v :: vs => val_wf v && val_list_wf vs

def val_dict_wf : List (String × Val) → Bool
  | [] => true
  | (_, v) :: kvs => val_wf v && val_dict_wf kvs

end

mutual

/-- Whether a value contains no tuple and no `Multi` marker anywhere. -/
def no_tup_multi : Val → Bool
  | .vlist vs => no_tup_multi_list vs
  | .vtup _ => false
  | .multi _ => false
  | .vdict kvs => no_tup_multi_dict kvs
  | _ => true

def no_tup_multi_list : List Val → Bool
  | [] => true
  | v :: vs => no_tup_multi v && no_tup_multi_list vs

def no_tup_multi_dict : List (String × Val) → Bool
  | [] => true
  | (_, v) :: kvs => no_tup_multi v && no_tup_multi_dict kvs

end

/-! ### Concrete structures used by witnesses and counterexamples -/

/-- `{"params": {"id": Multi([1, 2, 3])}}` — the spec's concrete scenario. -/
def opts1 : Val :=
  .vdict [("params", .vdict [("id", .multi [.vnat 1, .vnat 2, .vnat 3])])]

/-- `{"params": {"id": Multi([1, 1])}}` — one Multi whose item list holds the
same value twice. -/
def opts_dup : Val :=
  .vdict [("params", .vdict [("id", .multi [.vnat 1, .vnat 1])])]

/-- `{"data": {"username": Multi(["a", "b"]), "password": Multi(["p", "q"])}}`
— two Multis, to exhibit the enumeration order. -/
def opts2 : Val :=
  .vdict [("data", .vdict [("username", .multi [.vstr "a", .vstr "b"]),
                           ("password", .multi [.vstr "p", .vstr "q"])])]

/-- `{"data": ("a", Multi([1]))}` — arguments holding a tuple. -/
def opts_tup : Val :=
  .vdict [("data", .vtup [.vstr "a", .multi [.vnat 1]])]

/-- The tag of the single submission produced from `opts_tup`. -/
def opts_tup_tag : List (TagPath × Val) :=
  [([Step.key "data", Step.idx 1], .vnat 1)]

/-- The arguments of the single submission produced from `opts_tup`: the
tuple went through `arguments_copy` and became a list. -/
def opts_tup_args : Val :=
  .vdict [("data", .vlist [.vstr "a", .vnat 1])]

/-- Three completed futures, in completion order. -/
def first_futs : List (TaggedFuture Nat String Nat) :=
  [⟨0, Except.ok 0⟩, ⟨1, Except.ok 5⟩, ⟨2, Except.ok 7⟩]

/-- A filter matching responses whose value exceeds 4. -/
def first_filt (r : TaggedResult Nat String Nat) : Bool :=
  match r.value with
  | .ok v => decide (4 < v)
  | .error _ => false

/-! ## Helper lemmas -/

/-- `is_in_scope` unfolded into the four parsed-component comparisons. -/
theorem is_in_scope_iff (s : ScopedSession) (url : String) :
    s.is_in_scope url = true
      ↔ ((urlparse url).scheme = (urlparse s.base_url).scheme
          ∧ (urlparse url).hostname = (urlparse s.base_url).hostname
          ∧ (urlparse url).port = (urlparse s.base_url).port
          ∧ str_starts_with (urlparse url).path (urlparse s.base_url).path = true) := by
  constructor
  · intro h
    simp only [ScopedSession.is_in_scope, Bool.and_eq_true, beq_iff_eq] at h
    obtain ⟨⟨⟨h1, h2⟩, h3⟩, h4⟩ := h
    exact ⟨h3.symm, h1.symm, h2.symm, h4⟩
  · intro ⟨h1, h2, h3, h4⟩
    simp only [ScopedSession.is_in_scope, Bool.and_eq_true, beq_iff_eq]
    exact ⟨⟨⟨h2.symm, h3.symm⟩, h1.symm⟩, h4⟩

mutual

/-- `arguments_copy` commutes with `replace_at_path` (copying the substituted
value as well). -/
theorem copy_replace (v : Val) (p : TagPath) (x : Val) :
    arguments_copy (replace_at_path v p x)
      = replace_at_path (arguments_copy v) p (arguments_copy x) := by
  match v, p with
  | v, [] => simp [replace_at_path]
  | .vlist vs, .idx i :: rest =>
      simp [replace_at_path, arguments_copy, copy_replace_list vs i rest x]
  | .vtup vs, .idx i :: rest =>
      simp [replace_at_path, arguments_copy, copy_replace_list vs i rest x]
  | .vdict kvs, .key k :: rest =>
      simp [replace_at_path, arguments_copy, copy_replace_dict kvs k rest x]
  | .vstr s, _ :: _ => simp [replace_at_path, arguments_copy]
  | .vnat n, _ :: _ => simp [replace_at_path, arguments_copy]
  | .vnone, _ :: _ => simp [replace_at_path, arguments_copy]
  | .multi items, _ :: _ => simp [replace_at_path, arguments_copy]
  | .vlist vs, .key k :: rest => simp [replace_at_path, arguments_copy]
  | .vtup vs, .key k :: rest => simp [replace_at_path, arguments_copy]
  | .vdict kvs, .idx i :: rest => simp [replace_at_path, arguments_copy]

theorem copy_replace_list (vs : List Val) (i : Nat) (rest : TagPath) (x : Val) :
    arguments_copy_list (replace_in_list vs i rest x)
      = replace_in_list (arguments_copy_list vs) i rest (arguments_copy x) := by
  match vs, i with
  | [], _ => simp [replace_in_list, arguments_copy_list]
  | v :: vs, 0 =>
      simp [replace_in_list, arguments_copy_list, copy_replace v rest x]
  | v :: vs, i + 1 =>
      simp [replace_in_list, arguments_copy_list, copy_replace_list vs i rest x]

theorem copy_replace_dict (kvs : List (String × Val)) (key : String) (rest : TagPath) (x : Val) :
    arguments_copy_dict (replace_in_dict kvs key rest x)
      = replace_in_dict (arguments_copy_dict kvs) key rest (arguments_copy x) := by
  match kvs with
  | [] => simp [replace_in_dict, arguments_copy_dict]
  | (k, v) :: kvs =>
      by_cases h : k = key
      · simp [replace_in_dict, arguments_copy_dict, h, copy_replace v rest x]
      · simp [replace_in_dict, arguments_copy_dict, h, copy_replace_dict kvs key rest x]

end

mutual

/-- `arguments_copy` is idempotent: its image contains no tuple and no
`Multi`, so a second copy changes nothing. -/
theorem copy_idem (v : Val) :
    arguments_copy (arguments_copy v) = arguments_copy v := by
  match v with
  | .vstr s => simp [arguments_copy]
  | .vnat n => simp [arguments_copy]
  | .vnone => simp [arguments_copy]
  | .multi items => simp [arguments_copy]
  | .vlist vs => simp [arguments_copy, copy_idem_list vs]
  | .vtup vs => simp [arguments_copy, copy_idem_list vs]
  | .vdict kvs => simp [arguments_copy, copy_idem_dict kvs]

theorem copy_idem_list (vs : List Val) :
    arguments_copy_list (arguments_copy_list vs) = arguments_copy_list vs := by
  match vs with
  | [] => simp [arguments_copy_list]
  | v :: vs => simp [arguments_copy_list, copy_idem v, copy_idem_list vs]

theorem copy_idem_dict (kvs : List (String × Val)) :
    arguments_copy_dict (arguments_copy_dict kvs) = arguments_copy_dict kvs := by
  match kvs with
  | [] => simp [arguments_copy_dict]
  | (k, v) :: kvs => simp [arguments_copy_dict, copy_idem v, copy_idem_dict kvs]

end

mutual

/-- The output of `arguments_copy` is free of tuples and `Multi` markers. -/
theorem copy_no_tup (v : Val) : no_tup_multi (arguments_copy v) = true := by
  match v with
  | .vstr s => simp [arguments_copy, no_tup_multi]
  | .vnat n => simp [arguments_copy, no_tup_multi]
  | .vnone => simp [arguments_copy, no_tup_multi]
  | .multi items => simp [arguments_copy, no_tup_multi]
  | .vlist vs => simp [arguments_copy, no_tup_multi, copy_no_tup_list vs]
  | .vtup vs => simp [arguments_copy, no_tup_multi, copy_no_tup_list vs]
  | .vdict kvs => simp [arguments_copy, no_tup_multi, copy_no_tup_dict kvs]

theorem copy_no_tup_list (vs : List Val) :
    no_tup_multi_list (arguments_copy_list vs) = true := by
  match vs with
  | [] => simp [arguments_copy_list, no_tup_multi_list]
  | v :: vs =>
      simp [arguments_copy_list, no_tup_multi_list, copy_no_tup v, copy_no_tup_list vs]

theorem copy_no_tup_dict (kvs : List (String × Val)) :
    no_tup_multi_dict (arguments_copy_dict kvs) = true := by
  match kvs with
  | [] => simp [arguments_copy_dict, no_tup_multi_dict]
  | (k, v) :: kvs =>
      simp [arguments_copy_dict, no_tup_multi_dict, copy_no_tup v, copy_no_tup_dict kvs]

end

/-- `arguments_copy` keeps dict keys unchanged, in order. -/
theorem arguments_copy_dict_keys (kvs : List (String × Val)) :
    (arguments_copy_dict kvs).map Prod.fst = kvs.map Prod.fst := by
  induction kvs with
  | nil => simp [arguments_copy_dict]
  | cons kv rest ih =>
      obtain ⟨k, v⟩ := kv
      simp [arguments_copy_dict, ih]

/-- Copying commutes with replaying a whole tag of substitutions. -/
theorem copy_subst_all (tl : List (TagPath × Val)) :
    ∀ v : Val,
      arguments_copy (subst_all v tl)
        = subst_all (arguments_copy v) (tl.map fun px => (px.1, arguments_copy px.2)) := by
  induction tl with
  | nil => intro v; simp [subst_all]
  | cons px rest ih =>
      intro v
      obtain ⟨p, x⟩ := px
      simp only [subst_all, List.map_cons]
      rw [ih, copy_replace]

/-- Every submission of `_iter_set_path` is a combination of the cartesian
product: the accumulated arguments replayed through the combination's
substitutions and copied, tagged with the accumulated tag entries. -/
theorem iter_set_path_eq (pis : List (TagPath × List Val)) :
    ∀ (args : Val) (acc : List (TagPath × Val)),
      iter_set_path args pis acc
        = (tag_product pis).map fun tl =>
            ⟨arguments_copy (subst_all args tl), acc ++ tl⟩ := by
  induction pis with
  | nil => intro args acc; simp [iter_set_path, tag_product, subst_all]
  | cons pi rest ih =>
      obtain ⟨path, items⟩ := pi
      intro args acc
      simp only [iter_set_path, tag_product, List.map_flatMap, List.map_map]
      refine List.flatMap_congr fun item _ => ?_
      rw [ih]
      refine List.map_congr_left fun tl _ => ?_
      simp [subst_all, Function.comp_def]

/-- The number of combinations is the product of the Multis' lengths. -/
theorem tag_product_length (pis : List (TagPath × List Val)) :
    (tag_product pis).length = (pis.map fun pi => pi.2.length).prod := by
  induction pis with
  | nil => simp [tag_product]
  | cons pi rest ih =>
      obtain ⟨path, items⟩ := pi
      simp [tag_product, List.length_flatMap, ih, Function.comp_def,
        List.map_const', List.sum_replicate, smul_eq_mul, Nat.mul_comm]

/-- Every combination lists exactly the discovered paths, in discovery
order, as its keys. -/
theorem tag_product_keys (pis : List (TagPath × List Val)) :
    ∀ t ∈ tag_product pis, t.map Prod.fst = pis.map Prod.fst := by
  induction pis with
  | nil => intro t ht; simp [tag_product] at ht; simp [ht]
  | cons pi rest ih =>
      obtain ⟨path, items⟩ := pi
      intro t ht
      simp only [tag_product, List.mem_flatMap, List.mem_map] at ht
      obtain ⟨item, hitem, tl, htl, rfl⟩ := ht
      simp [ih tl htl]

/-- When every Multi's item list is duplicate-free, the combinations are
pairwise distinct. -/
theorem tag_product_nodup (pis : List (TagPath × List Val))
    (h : ∀ pi ∈ pis, (pi.2 : List Val).Nodup) : (tag_product pis).Nodup := by
  induction pis with
  | nil => simp [tag_product]
  | cons pi rest ih =>
      obtain ⟨path, items⟩ := pi
      have hitems : items.Nodup := by simpa using h (path, items) (by simp)
      have htails : (tag_product rest).Nodup :=
        ih fun pi hpi => h pi (List.mem_cons_of_mem _ hpi)
      simp only [tag_product]
      rw [List.nodup_flatMap]
      constructor
      · intro item _
        exact htails.map fun tl1 tl2 he => by
          simpa using congrArg List.tail he
      · refine hitems.imp fun {a b} hab => ?_
        intro x hxa hxb
        simp only [List.mem_map] at hxa hxb
        obtain ⟨tl1, _, rfl⟩ := hxa
        obtain ⟨tl2, _, heq⟩ := hxb
        have : b = a := by simpa using congrArg (fun l => (l.headD (path, b)).2) heq
        exact hab this.symm

/-- `_run_requests` in closed form: one submission per combination of the
discovered Multis, in enumeration order. -/
theorem run_submissions_eq (options : Val) :
    run_submissions options
      = (tag_product (find_multis_in_value [] options)).map fun tl =>
          ⟨arguments_copy (subst_all (arguments_copy options) tl), tl⟩ := by
  rw [run_submissions, iter_set_path_eq]
  simp

/-- The tags of the expansion are exactly the cartesian-product
combinations, in enumeration order. -/
theorem run_submissions_tags (options : Val) :
    (run_submissions options).map Submission.tag
      = tag_product (find_multis_in_value [] options) := by
  rw [run_submissions_eq]
  simp [List.map_map, Function.comp_def]

mutual

/-- Every path found below a value extends the path that reached it. -/
theorem find_value_extends (path : TagPath) (v : Val) :
    ∀ pr ∈ find_multis_in_value path v, ∃ r, pr.1 = path ++ r := by
  match v with
  | .multi items =>
      intro pr hpr
      simp only [find_multis_in_value, List.mem_singleton] at hpr
      exact ⟨[], by simp [hpr]⟩
  | .vstr s => intro pr hpr; simp [find_multis_in_value] at hpr
  | .vnat n => intro pr hpr; simp [find_multis_in_value] at hpr
  | .vnone => intro pr hpr; simp [find_multis_in_value] at hpr
  | .vlist vs =>
      intro pr hpr
      simp only [find_multis_in_value] at hpr
      obtain ⟨j, r, _, hr⟩ := find_list_extends path 0 vs pr hpr
      exact ⟨Step.idx j :: r, hr⟩
  | .vtup vs =>
      intro pr hpr
      simp only [find_multis_in_value] at hpr
      obtain ⟨j, r, _, hr⟩ := find_list_extends path 0 vs pr hpr
      exact ⟨Step.idx j :: r, hr⟩
  | .vdict kvs =>
      intro pr hpr
      simp only [find_multis_in_value] at hpr
      obtain ⟨k, r, _, hr⟩ := find_dict_extends path kvs pr hpr
      exact ⟨Step.key k :: r, hr⟩

/-- Every path found in a list slice from index `i` passes through an index
step `≥ i` right after the reaching path. -/
theorem find_list_extends (path : TagPath) (i : Nat) (vs : List Val) :
    ∀ pr ∈ find_multis_in_list path i vs,
      ∃ j r, i ≤ j ∧ pr.1 = path ++ Step.idx j :: r := by
  match vs with
  | [] => intro pr hpr; simp [find_multis_in_list] at hpr
  | v :: vs =>
      intro pr hpr
      simp only [find_multis_in_list, List.mem_append] at hpr
      rcases hpr with h | h
      · obtain ⟨r, hr⟩ := find_value_extends (path ++ [Step.idx i]) v pr h
        exact ⟨i, r, Nat.le_refl i, by rw [hr, List.append_assoc]; rfl⟩
      · obtain ⟨j, r, hij, hr⟩ := find_list_extends path (i + 1) vs pr h
        exact ⟨j, r, by omega, hr⟩

/-- Every path found in a dict passes through a key step for one of the
dict's keys right after the reaching path. -/
theorem find_dict_extends (path : TagPath) (kvs : List (String × Val)) :
    ∀ pr ∈ find_multis_in_dict path kvs,
      ∃ k r, dict_has_key k kvs = true ∧ pr.1 = path ++ Step.key k :: r := by
  match kvs with
  | [] => intro pr hpr; simp [find_multis_in_dict] at hpr
  | (k, v) :: kvs =>
      intro pr hpr
      simp only [find_multis_in_dict, List.mem_append] at hpr
      rcases hpr with h | h
      · obtain ⟨r, hr⟩ := find_value_extends (path ++ [Step.key k]) v pr h
        exact ⟨k, r, by simp [dict_has_key], by rw [hr, List.append_assoc]; rfl⟩
      · obtain ⟨k2, r, hk2, hr⟩ := find_dict_extends path kvs pr h
        exact ⟨k2, r, by simp [dict_has_key, hk2], hr⟩

end

mutual

/-- Discovery never records the same path twice (for well-formed values,
whose dicts have pairwise-distinct keys — true of every Python dict). -/
theorem find_value_paths_nodup (path : TagPath) (v : Val) (hwf : val_wf v = true) :
    ((find_multis_in_value path v).map Prod.fst).Nodup := by
  match v with
  | .multi items => simp [find_multis_in_value]
  | .vstr s => simp [find_multis_in_value]
  | .vnat n => simp [find_multis_in_value]
  | .vnone => simp [find_multis_in_value]
  | .vlist vs =>
      simp only [find_multis_in_value]
      exact find_list_paths_nodup path 0 vs (by simpa [val_wf] using hwf)
  | .vtup vs =>
      simp only [find_multis_in_value]
      exact find_list_paths_nodup path 0 vs (by simpa [val_wf] using hwf)
  | .vdict kvs =>
      simp only [find_multis_in_value]
      have h' : dict_keys_unique kvs = true ∧ val_dict_wf kvs = true := by
        simpa [val_wf, Bool.and_eq_true] using hwf
      exact find_dict_paths_nodup path kvs h'.1 h'.2

theorem find_list_paths_nodup (path : TagPath) (i : Nat) (vs : List Val)
    (hwf : val_list_wf vs = true) :
    ((find_multis_in_list path i vs).map Prod.fst).Nodup := by
  match vs with
  | [] => simp [find_multis_in_list]
  | v :: vs =>
      have h' : val_wf v = true ∧ val_list_wf vs = true := by
        simpa [val_list_wf, Bool.and_eq_true] using hwf
      simp only [find_multis_in_list, List.map_append]
      refine List.Nodup.append (find_value_paths_nodup _ v h'.1)
        (find_list_paths_nodup path (i + 1) vs h'.2) ?_
      intro q hq1 hq2
      simp only [List.mem_map] at hq1 hq2
      obtain ⟨pr1, hpr1, hq1e⟩ := hq1
      obtain ⟨pr2, hpr2, hq2e⟩ := hq2
      obtain ⟨r1, hr1⟩ := find_value_extends (path ++ [Step.idx i]) v pr1 hpr1
      obtain ⟨j, r2, hj, hr2⟩ := find_list_extends path (i + 1) vs pr2 hpr2
      have heq : (path ++ [Step.idx i]) ++ r1 = path ++ Step.idx j :: r2 := by
        rw [← hr1, ← hr2, hq1e, hq2e]
      rw [List.append_assoc] at heq
      have heq2 := List.append_cancel_left heq
      simp only [List.singleton_append, List.cons.injEq, Step.idx.injEq] at heq2
      omega

theorem find_dict_paths_nodup (path : TagPath) (kvs : List (String × Val))
    (hkeys : dict_keys_unique kvs = true) (hwf : val_dict_wf kvs = true) :
    ((find_multis_in_dict path kvs).map Prod.fst).Nodup := by
  match kvs with
  | [] => simp [find_multis_in_dict]
  | (k, v) :: kvs =>
      have hk' : dict_has_key k kvs = false ∧ dict_keys_unique kvs = true := by
        simpa [dict_keys_unique, Bool.and_eq_true] using hkeys
      have h' : val_wf v = true ∧ val_dict_wf kvs = true := by
        simpa [val_dict_wf, Bool.and_eq_true] using hwf
      simp only [find_multis_in_dict, List.map_append]
      refine List.Nodup.append (find_value_paths_nodup _ v h'.1)
        (find_dict_paths_nodup path kvs hk'.2 h'.2) ?_
      intro q hq1 hq2
      simp only [List.mem_map] at hq1 hq2
      obtain ⟨pr1, hpr1, hq1e⟩ := hq1
      obtain ⟨pr2, hpr2, hq2e⟩ := hq2
      obtain ⟨r1, hr1⟩ := find_value_extends (path ++ [Step.key k]) v pr1 hpr1
      obtain ⟨k2, r2, hk2, hr2⟩ := find_dict_extends path kvs pr2 hpr2
      have heq : (path ++ [Step.key k]) ++ r1 = path ++ Step.key k2 :: r2 := by
        rw [← hr1, ← hr2, hq1e, hq2e]
      rw [List.append_assoc] at heq
      have heq2 := List.append_cancel_left heq
      simp only [List.singleton_append, List.cons.injEq, Step.key.injEq] at heq2
      rw [heq2.1] at hk'
      rw [hk'.1] at hk2
      exact Bool.false_ne_true hk2

end

/-- `"skip"`: every success is yielded with its tag, every failure dropped,
and no exception escapes. -/
theorem tag_results_skip (futs : List (TaggedFuture τ ε ρ)) :
    tag_results ErrorHandling.skip futs = (futs.filterMap future_success, none) := by
  induction futs with
  | nil => simp [tag_results]
  | cons f rest ih =>
      cases hf : f.outcome with
      | ok r => simp [tag_results, hf, future_success, List.filterMap_cons, ih]
      | error e => simp [tag_results, hf, future_success, List.filterMap_cons, ih]

/-- `"return"`: every future is yielded, failures as tagged exception
objects, and no exception escapes. -/
theorem tag_results_ret (futs : List (TaggedFuture τ ε ρ)) :
    tag_results ErrorHandling.ret futs = (futs.map future_result, none) := by
  induction futs with
  | nil => simp [tag_results]
  | cons f rest ih =>
      cases hf : f.outcome with
      | ok r => simp [tag_results, hf, future_result, ih]
      | error e => simp [tag_results, hf, future_result, ih]

/-- `"raise"`: the successes before the first failure are yielded, then the
first exception escapes to the consumer. -/
theorem tag_results_raise (futs : List (TaggedFuture τ ε ρ)) :
    tag_results ErrorHandling.raise futs
      = ((futs.takeWhile future_ok).map future_result, first_exception futs) := by
  induction futs with
  | nil => simp [tag_results, first_exception]
  | cons f rest ih =>
      cases hf : f.outcome with
      | ok r =>
          simp [tag_results, hf, future_result, future_ok, first_exception,
            List.takeWhile_cons, ih]
      | error e =>
          simp [tag_results, hf, future_ok, first_exception, List.takeWhile_cons]

/-- When every future succeeded, every policy yields all results in order
and no exception escapes. -/
theorem tag_results_all_ok (oe : ErrorHandling) (futs : List (TaggedFuture τ ε ρ))
    (h : ∀ f ∈ futs, future_ok f = true) :
    tag_results oe futs = (futs.map future_result, none) := by
  induction futs with
  | nil => simp [tag_results]
  | cons f rest ih =>
      have hf := h f (by simp)
      cases hout : f.outcome with
      | ok r =>
          simp [tag_results, hout, future_result,
            ih fun g hg => h g (List.mem_cons_of_mem _ hg)]
      | error e => simp [future_ok, hout] at hf

/-- A pass never shrinks the queue length. -/
theorem pass_run_le (react : Nat → Nat) (old_len : Nat) (todo : List Nat) :
    ∀ total : Nat, total ≤ (pass_run react old_len todo total).2 := by
  induction todo with
  | nil => intro total; simp [pass_run]
  | cons i rest ih =>
      intro total
      simp only [pass_run]
      split
      · exact Nat.le_add_right total (react i)
      · exact Nat.le_trans (Nat.le_add_right total (react i)) (ih (total + react i))

/-- A pass yields a sublist of its todo set, in order. -/
theorem pass_run_sublist (react : Nat → Nat) (old_len : Nat) (todo : List Nat) :
    ∀ total : Nat, List.Sublist (pass_run react old_len todo total).1 todo := by
  induction todo with
  | nil => intro total; simp [pass_run]
  | cons i rest ih =>
      intro total
      simp only [pass_run]
      split
      · exact (List.nil_sublist rest).cons₂ i
      · exact (ih (total + react i)).cons₂ i

/-- A pass that ends with the queue length it started from neither broke out
early nor saw any growth: it yielded its whole todo set. -/
theorem pass_run_stable (react : Nat → Nat) (old_len : Nat) (todo : List Nat) :
    ∀ total : Nat, old_len ≤ total →
      (pass_run react old_len todo total).2 = old_len →
      (pass_run react old_len todo total).1 = todo ∧ total = old_len := by
  induction todo with
  | nil => intro total hle h; simp [pass_run] at h ⊢; omega
  | cons i rest ih =>
      intro total hle h
      by_cases hc : old_len < total + react i
      · rw [pass_run] at h
        rw [if_pos hc] at h
        omega
      · rw [pass_run] at h ⊢
        rw [if_neg hc] at h ⊢
        have hle2 : old_len ≤ total + react i := by omega
        have := ih (total + react i) hle2 h
        exact ⟨by simp [this.1], by omega⟩

/-! ## Claims -/

/-- Claim C2: `prepare_request` raises `HTTPOutOfScopeError` (carrying the
resolved URL and the base URL) exactly when the resolved URL's parsed scheme,
hostname or port differs from the base URL's or its path does not start with
the base path as a string prefix; the error is the synchronous result of
`prepare_request` itself (before the request reaches the transport) and any
non-error result is the resolved URL handed onward. -/
theorem prepare_request_scope_iff (s : ScopedSession) (url : String) :
    (s.prepare_request url = Except.error ⟨s.get_absolute_url url, s.base_url⟩
      ↔ ¬ ((urlparse (s.get_absolute_url url)).scheme = (urlparse s.base_url).scheme
            ∧ (urlparse (s.get_absolute_url url)).hostname = (urlparse s.base_url).hostname
            ∧ (urlparse (s.get_absolute_url url)).port = (urlparse s.base_url).port
            ∧ str_starts_with (urlparse (s.get_absolute_url url)).path
                (urlparse s.base_url).path = true))
    ∧ (∀ e, s.prepare_request url = Except.error e
        → e = ⟨s.get_absolute_url url, s.base_url⟩)
    ∧ (∀ r, s.prepare_request url = Except.ok r → r = s.get_absolute_url url) := by
  by_cases hsc : s.is_in_scope (s.get_absolute_url url) = true
  · have hok : s.prepare_request url = Except.ok (s.get_absolute_url url) := by
      simp [ScopedSession.prepare_request, hsc]
    refine ⟨?_, ?_, ?_⟩
    · rw [hok]
      constructor
      · intro he; exact absurd he (by simp)
      · intro hcon; exact absurd ((is_in_scope_iff s _).1 hsc) hcon
    · intro e he; rw [hok] at he; exact absurd he (by simp)
    · intro r hr; rw [hok] at hr; exact (Except.ok.inj hr).symm
  · have herr : s.prepare_request url
        = Except.error ⟨s.get_absolute_url url, s.base_url⟩ := by
      simp [ScopedSession.prepare_request, hsc]
    refine ⟨?_, ?_, ?_⟩
    · rw [herr]
      constructor
      · intro _ hcon; exact hsc ((is_in_scope_iff s _).2 hcon)
      · intro _; rfl
    · intro e he; rw [herr] at he; exact (Except.error.inj he).symm
    · intro r hr; rw [herr] at hr; exact absurd hr (by simp)

/-- Witness for C2: the documented example — base `https://target.com/admin`
rejects `https://target.com/user` with the error carrying both URLs. -/
theorem prepare_request_scope_iff_witness :
    (ScopedSession.init "https://target.com/admin").prepare_request
        "https://target.com/user"
      = Except.error
          ⟨(ScopedSession.init "https://target.com/admin").get_absolute_url
              "https://target.com/user",
            (ScopedSession.init "https://target.com/admin").base_url⟩ :=
  ((prepare_request_scope_iff (ScopedSession.init "https://target.com/admin")
    "https://target.com/user").1).mpr (by decide)

/-- Claim C9: URL resolution returns a URL starting with `http://` or
`https://` unchanged, and otherwise concatenates the base URL with the given
URL verbatim, with no normalization — in particular `..` segments are
preserved exactly, as in the documented example. -/
theorem get_absolute_url_spec (s : ScopedSession) (url : String) :
    s.get_absolute_url url
        = (if str_starts_with url "https://" || str_starts_with url "http://" then url
           else s.base_url ++ url)
    ∧ (ScopedSession.init "https://target.com/admin").get_absolute_url
        "/login/../dashboard" = "https://target.com/admin/login/../dashboard" :=
  ⟨rfl, by decide⟩

/-- Claim C4: the pool's `on_error` policy fully determines what consumers
observe for failed submissions: `"raise"` yields the successes before the
first failure and then raises the first exception to the consumer, ending
the loop; `"skip"` drops every failed submission from the output and raises
nothing (concretely: 1 failure among 20 submissions yields exactly 19
results and no exception); `"return"` yields the exception object itself,
carrying the submission's tag, in place of a response, and raises nothing. -/
theorem on_error_policy_spec {τ ε ρ : Type} (futs : List (TaggedFuture τ ε ρ)) :
    tag_results ErrorHandling.raise futs
        = ((futs.takeWhile future_ok).map future_result, first_exception futs)
    ∧ tag_results ErrorHandling.skip futs = (futs.filterMap future_success, none)
    ∧ tag_results ErrorHandling.ret futs = (futs.map future_result, none)
    ∧ (tag_results ErrorHandling.skip twenty_futures).1.length = 19
    ∧ (tag_results ErrorHandling.skip twenty_futures).2 = none :=
  ⟨tag_results_raise futs, tag_results_skip futs, tag_results_ret futs,
    by decide, by decide⟩

/-- Claim C8: submitting to a pool after it was closed always fails:
`_submit_request` hands the call to the executor first, and a shut-down
executor raises (`RuntimeError` in the source; the spec calls it
`PoolClosedError`) before anything is enqueued — the queue is left exactly
as it was, so the request is neither silently enqueued nor discarded. -/
theorem submit_after_close_fails {τ : Type} (p : PoolState τ) (f : τ) :
    submit_request (pool_exit p) f
        = Except.error "cannot schedule new futures after shutdown"
    ∧ (pool_exit p).queue = p.queue := by
  constructor
  · simp [submit_request, pool_exit, executor_submit]
  · rfl

/-- Claim C6: an `as_completed` iteration observes submissions made while it
is being consumed: whenever the loop returns (`some`), every future in the
final queue — including every late submission made by the consumer during
the iteration, which grew the queue from `total0` to `final_total` — was
yielded exactly once, and the loop has terminated only after a full pass in
which the queue did not grow. -/
theorem as_completed_observes_all (react : Nat → Nat) (fuel total0 : Nat)
    (out : List Nat) (final_total : Nat)
    (h : as_completed_loop react fuel total0 [] = some (out, final_total)) :
    total0 ≤ final_total ∧ out.Nodup ∧ ∀ i, i ∈ out ↔ i < final_total := by
  suffices H : ∀ (fuel total : Nat) (done : List Nat),
      done.Nodup → (∀ i ∈ done, i < total) →
      ∀ out T, as_completed_loop react fuel total done = some (out, T) →
        total ≤ T ∧ out.Nodup ∧ (∀ i ∈ done, i ∈ out) ∧ (∀ i, i ∈ out ↔ i < T) by
    obtain ⟨h1, h2, _, h4⟩ := H fuel total0 [] List.nodup_nil (by simp) out final_total h
    exact ⟨h1, h2, h4⟩
  intro fuel
  induction fuel with
  | zero =>
      intro total done _ _ out T h
      simp [as_completed_loop] at h
  | succ fuel ih =>
      intro total done hnd hlt out T h
      simp only [as_completed_loop] at h
      set todo := (List.range total).filter (fun i => !(done.contains i)) with htodo
      have hnodup_todo : todo.Nodup := (List.nodup_range total).filter _
      have hmem_todo : ∀ i, i ∈ todo ↔ i < total ∧ i ∉ done := by
        intro i
        simp [htodo, List.mem_filter, List.mem_range]
      have hdisj : List.Disjoint done todo := fun a ha hat =>
        ((hmem_todo a).1 hat).2 ha
      by_cases hstop : (pass_run react total todo total).2 = total
      · rw [if_pos hstop] at h
        have hpair := Option.some.inj h
        obtain ⟨rfl, rfl⟩ : done ++ (pass_run react total todo total).1 = out
            ∧ (pass_run react total todo total).2 = T :=
          ⟨congrArg Prod.fst hpair, congrArg Prod.snd hpair⟩
        have hstable :=
          pass_run_stable react total todo total (Nat.le_refl total) hstop
        refine ⟨Nat.le_of_eq hstop.symm, ?_, ?_, ?_⟩
        · rw [hstable.1]
          exact hnd.append hnodup_todo hdisj
        · intro i hi
          exact List.mem_append_left _ hi
        · intro i
          rw [hstable.1, List.mem_append, hstop]
          constructor
          · rintro (hi | hi)
            · exact hlt i hi
            · exact ((hmem_todo i).1 hi).1
          · intro hi
            by_cases hd : i ∈ done
            · exact Or.inl hd
            · exact Or.inr ((hmem_todo i).2 ⟨hi, hd⟩)
      · rw [if_neg hstop] at h
        have hsub := pass_run_sublist react total todo total
        have hle := pass_run_le react total todo total
        have hnd' : (done ++ (pass_run react total todo total).1).Nodup :=
          hnd.append (hnodup_todo.sublist hsub)
            (fun a ha hat => hdisj ha (hsub.subset hat))
        have hlt' : ∀ i ∈ done ++ (pass_run react total todo total).1,
            i < (pass_run react total todo total).2 := by
          intro i hi
          rcases List.mem_append.1 hi with hi | hi
          · exact Nat.lt_of_lt_of_le (hlt i hi) hle
          · exact Nat.lt_of_lt_of_le ((hmem_todo i).1 (hsub.subset hi)).1 hle
        obtain ⟨h1, h2, h3, h4⟩ := ih (pass_run react total todo total).2
          (done ++ (pass_run react total todo total).1) hnd' hlt' out T h
        refine ⟨Nat.le_trans hle h1, h2, ?_, h4⟩
        intro i hi
        exact h3 i (List.mem_append_left _ hi)

/-- Witness for C6: a consumer that submits two new futures while handling
the very first yield; the iteration still observes all three futures. -/
theorem as_completed_observes_all_witness :
    1 ≤ 3 ∧ List.Nodup [0, 1, 2] ∧ (2 ∈ [0, 1, 2] ↔ 2 < 3) := by
  have h := as_completed_observes_all (fun i => if i = 0 then 2 else 0) 5 1
    [0, 1, 2] 3 (by decide)
  exact ⟨h.1, h.2.1, h.2.2 2⟩

/-- Claim C7: `MultiRequestFirst` returns the first
chronologically-completed result satisfying the predicate (the futures are
given in completion order, which need not be submission order); when the
completion stream is exhausted (no exception escaped) and no result matches,
it returns `None` without raising; and leaving the `with pool:` block closes
the pool, cancelling exactly the still-pending handles. -/
theorem multi_request_first_spec {τ ε ρ : Type} (filt : TaggedResult τ ε ρ → Bool)
    (oe : ErrorHandling) (futs : List (TaggedFuture τ ε ρ)) (hs : List HandleState)
    (hexh : (tag_results oe futs).2 = none) :
    multi_first filt oe futs = Except.ok ((tag_results oe futs).1.find? filt)
    ∧ ((∀ r ∈ (tag_results oe futs).1, filt r = false)
        → multi_first filt oe futs = Except.ok none)
    ∧ (∀ st ∈ pool_close hs, st ≠ HandleState.pending)
    ∧ (pool_close hs).length = hs.length := by
  have hmain : multi_first filt oe futs
      = Except.ok ((tag_results oe futs).1.find? filt) := by
    rw [multi_first, first_get_results]
    cases hfind : (tag_results oe futs).1.find? filt with
    | some r => simp [hfind]
    | none => simp [hfind, hexh]
  refine ⟨hmain, ?_, ?_, by simp [pool_close]⟩
  · intro hall
    rw [hmain]
    have : (tag_results oe futs).1.find? filt = none :=
      List.find?_eq_none.2 fun x hx => by simp [hall x hx]
    rw [this]
  · intro st hst
    simp only [pool_close, List.mem_map] at hst
    obtain ⟨h0, _, rfl⟩ := hst
    cases h0 <;> simp

/-- Witness for C7: among three completed futures the second is the first
match; with an unsatisfiable predicate the result is `None`. -/
theorem multi_request_first_spec_witness :
    multi_first first_filt ErrorHandling.raise first_futs
      = Except.ok (some ⟨1, Except.ok 5⟩)
    ∧ multi_first (fun _ => false) ErrorHandling.raise first_futs
      = Except.ok none := by
  have h1 := multi_request_first_spec first_filt ErrorHandling.raise first_futs []
    (by decide)
  have h2 := multi_request_first_spec (fun _ => (false : Bool)) ErrorHandling.raise
    first_futs [] (by decide)
  constructor
  · rw [h1.1]; decide
  · exact h2.2.1 (by decide)

/-- Claim C1, counterexample to the tag-distinctness part as stated: one
Multi with item list `[1, 1]` (`N = 1`, `L1 = 2`) produces exactly two
submissions, but their tags are equal, not distinct. -/
theorem multi_expansion_tags_not_distinct :
    (run_submissions opts_dup).length = 2
    ∧ (run_submissions opts_dup).map Submission.tag
        = [[([Step.key "params", Step.key "id"], Val.vnat 1)],
           [([Step.key "params", Step.key "id"], Val.vnat 1)]]
    ∧ ¬ ((run_submissions opts_dup).map Submission.tag).Nodup := by
  decide

/-- Claim C1 (amended): for well-formed options (distinct keys inside every
dict, as in any Python dict) whose discovered Multis have duplicate-free
item lists, the expansion submits exactly the product of the Multis' lengths
requests; the tags are pairwise distinct, and each tag is the map from
discovered paths (themselves pairwise distinct) to substituted values, with
exactly the discovered paths as keys; submitting the expansion to the pool
and collecting `in_order` returns exactly as many results as submissions
(the transport returning a response for every request). -/
theorem multi_expansion_counts_and_tags {ε ρ : Type} (options : Val)
    (transport : Val → ρ) (oe : ErrorHandling)
    (hwf : val_wf options = true)
    (hnd : ∀ pi ∈ find_multis_in_value [] options, (pi.2 : List Val).Nodup) :
    (run_submissions options).length
        = ((find_multis_in_value [] options).map fun pi => pi.2.length).prod
    ∧ ((run_submissions options).map Submission.tag).Nodup
    ∧ (∀ t ∈ (run_submissions options).map Submission.tag,
          t.map Prod.fst = (find_multis_in_value [] options).map Prod.fst)
    ∧ ((find_multis_in_value [] options).map Prod.fst).Nodup
    ∧ (pool_in_order oe ((run_submissions options).map fun s =>
          (⟨s.tag, Except.ok (transport s.arguments)⟩
            : TaggedFuture (List (TagPath × Val)) ε ρ))).1.length
        = (run_submissions options).length := by
  refine ⟨?_, ?_, ?_, find_value_paths_nodup [] options hwf, ?_⟩
  · rw [run_submissions_eq]
    simp [tag_product_length]
  · rw [run_submissions_tags]
    exact tag_product_nodup _ hnd
  · rw [run_submissions_tags]
    exact tag_product_keys _
  · rw [pool_in_order, tag_results_all_ok]
    · simp
    · intro f hf
      simp only [List.mem_map] at hf
      obtain ⟨s, _, rfl⟩ := hf
      simp [future_ok]

/-- Witness for C1 (amended): `{"params": {"id": Multi([1, 2, 3])}}`
produces exactly 3 submissions with pairwise distinct tags. -/
theorem multi_expansion_counts_and_tags_witness :
    (run_submissions opts1).length = 3
    ∧ ((run_submissions opts1).map Submission.tag).Nodup := by
  have h := multi_expansion_counts_and_tags (ε := String) (ρ := Val) opts1
    (fun v => v) ErrorHandling.raise (by decide) (by decide)
  exact ⟨h.1.trans (by decide), h.2.1⟩

/-- Claim C3: the expansion enumerates the combinations with the
first-discovered Multi varying slowest and the last-discovered varying
fastest (`tag_product` nests exactly that way), `in_order` returns the
results of the submitted futures in exactly submission order, and concretely
two Multis `username = [a, b]` (discovered first) and `password = [p, q]`
(discovered last) enumerate as `(a,p), (a,q), (b,p), (b,q)`. -/
theorem expansion_enumeration_order {ε ρ : Type} (options : Val)
    (transport : Val → ρ) (oe : ErrorHandling) :
    (run_submissions options).map Submission.tag
        = tag_product (find_multis_in_value [] options)
    ∧ (pool_in_order oe ((run_submissions options).map fun s =>
          (⟨s.tag, Except.ok (transport s.arguments)⟩
            : TaggedFuture (List (TagPath × Val)) ε ρ))).1
        = ((run_submissions options).map fun s =>
            (⟨s.tag, Except.ok (transport s.arguments)⟩
              : TaggedResult (List (TagPath × Val)) ε ρ))
    ∧ (run_submissions opts2).map Submission.tag
        = [[([Step.key "data", Step.key "username"], Val.vstr "a"),
            ([Step.key "data", Step.key "password"], Val.vstr "p")],
           [([Step.key "data", Step.key "username"], Val.vstr "a"),
            ([Step.key "data", Step.key "password"], Val.vstr "q")],
           [([Step.key "data", Step.key "username"], Val.vstr "b"),
            ([Step.key "data", Step.key "password"], Val.vstr "p")],
           [([Step.key "data", Step.key "username"], Val.vstr "b"),
            ([Step.key "data", Step.key "password"], Val.vstr "q")]] := by
  refine ⟨run_submissions_tags options, ?_, by decide⟩
  rw [pool_in_order, tag_results_all_ok]
  · simp [List.map_map, Function.comp_def, future_result]
  · intro f hf
    simp only [List.mem_map] at hf
    obtain ⟨s, _, rfl⟩ := hf
    simp [future_ok]

/-- Claim C5, counterexample as stated: with options `{"data": ("a",
Multi([1]))}` the single submission's arguments hold a *list* `["a", 1]`
(the per-combination copy converts tuples), while substituting the tag back
into the original options leaves the tuple `("a", 1)` — not the submitted
arguments. -/
theorem round_trip_counterexample :
    run_submissions opts_tup = [⟨opts_tup_args, opts_tup_tag⟩]
    ∧ subst_all opts_tup opts_tup_tag
        = Val.vdict [("data", Val.vtup [Val.vstr "a", Val.vnat 1])]
    ∧ subst_all opts_tup opts_tup_tag ≠ opts_tup_args := by
  decide

/-- Claim C5 (amended): re-applying a result's tag substitution to the
original options reproduces the submitted request arguments up to the
engine's own per-combination normalization copy: for every submission of the
expansion, `arguments_copy` of the tag substituted into the original options
equals the arguments that were submitted. -/
theorem round_trip_amended (options : Val) (s : Submission)
    (hs : s ∈ run_submissions options) :
    arguments_copy (subst_all options s.tag) = s.arguments := by
  rw [run_submissions_eq] at hs
  simp only [List.mem_map] at hs
  obtain ⟨tl, htl, rfl⟩ := hs
  show arguments_copy (subst_all options tl)
      = arguments_copy (subst_all (arguments_copy options) tl)
  rw [copy_subst_all, copy_subst_all, copy_idem]

/-- Witness for C5 (amended): the tuple-bearing options of the
counterexample do round-trip once the normalization copy is applied. -/
theorem round_trip_amended_witness :
    arguments_copy (subst_all opts_tup opts_tup_tag) = opts_tup_args :=
  round_trip_amended opts_tup ⟨opts_tup_args, opts_tup_tag⟩ (by decide)

/-- Claim C10: the per-combination copy is not structure-preserving: it
turns every tuple into a list (of copied elements), replaces every `Multi`
still present with the string `"X"`, leaves dict keys and scalar leaves
unchanged, its output never contains a tuple or a `Multi` — and therefore
the arguments handed to the pool never do, whatever the caller passed. -/
theorem arguments_copy_not_structure_preserving :
    (∀ vs, arguments_copy (Val.vtup vs) = Val.vlist (arguments_copy_list vs))
    ∧ (∀ items, arguments_copy (Val.multi items) = Val.vstr "X")
    ∧ (∀ kvs, arguments_copy (Val.vdict kvs) = Val.vdict (arguments_copy_dict kvs)
        ∧ (arguments_copy_dict kvs).map Prod.fst = kvs.map Prod.fst)
    ∧ (∀ sv, arguments_copy (Val.vstr sv) = Val.vstr sv)
    ∧ (∀ n, arguments_copy (Val.vnat n) = Val.vnat n)
    ∧ arguments_copy Val.vnone = Val.vnone
    ∧ (∀ v, no_tup_multi (arguments_copy v) = true)
    ∧ (∀ options s, s ∈ run_submissions options → no_tup_multi s.arguments = true) := by
  refine ⟨fun vs => rfl, fun items => rfl,
    fun kvs => ⟨rfl, arguments_copy_dict_keys kvs⟩,
    fun sv => rfl, fun n => rfl, rfl, copy_no_tup, ?_⟩
  intro options s hs
  rw [run_submissions_eq] at hs
  simp only [List.mem_map] at hs
  obtain ⟨tl, _, rfl⟩ := hs
  exact copy_no_tup _

/-- Witness for C10: the submission produced from tuple-bearing options
holds arguments free of tuples and Multis. -/
theorem arguments_copy_not_structure_preserving_witness :
    no_tup_multi opts_tup_args = true :=
  arguments_copy_not_structure_preserving.2.2.2.2.2.2.2 opts_tup
    ⟨opts_tup_args, opts_tup_tag⟩ (by decide)

end Tenlib
